import Mathlib

/-!
# Verification of refacta's conditional-rewrite engine

Shallow embedding of the refactoring extension's core: the TypeScript AST
fragment the transforms operate on, the expression inverter, the block
statement-list extractor, the two if/else flattening transforms, the
conditional(ternary)-to-if expansion, the position resolver, the ancestor
walk, and the range mapper.  Each definition is translated directly from
the corresponding source function; fallible operations (TypeScript code
that dereferences a possibly-undefined value) return `Option`, with `none`
standing for a thrown TypeError.
-/

namespace Refacta

/-- Unary operators of a TypeScript PrefixUnaryExpression.  The source only
ever tests for `ts.SyntaxKind.ExclamationToken`; the other operators exist so
that the operator test in `invertExpression` is a genuine comparison. -/
inductive UnaryOp where
  | exclamation   -- ts.SyntaxKind.ExclamationToken
  | minus         -- ts.SyntaxKind.MinusToken
  | plus          -- ts.SyntaxKind.PlusToken
  | tilde         -- ts.SyntaxKind.TildeToken
deriving DecidableEq, Repr

/-- The fragment of the TypeScript AST that the transforms inspect and build.
One unified node type, mirroring `ts.Node`:

* `sourceFile`   — ts.SourceFile (list of top-level statements);
* `ifStmt`       — ts.IfStatement: `expression`, `thenStatement`, optional
                   `elseStatement`;
* `block`        — ts.Block: ordered statement list;
* `returnStmt`   — ts.ReturnStatement with optional returned expression;
                   `returnStmt none` is `ts.factory.createReturnStatement()`;
* `exprStmt`     — ts.ExpressionStatement;
* `unary`        — ts.PrefixUnaryExpression (operator, operand);
* `conditional`  — ts.ConditionalExpression: `condition`, `whenTrue`,
                   `whenFalse`;
* `ident`        — an identifier leaf;
* `otherNode`    — any other syntax shape, opaque to the transforms. -/
inductive TsNode where
  | sourceFile (statements : List TsNode)
  | ifStmt (expression : TsNode) (thenStatement : TsNode)
      (elseStatement : Option TsNode)
  | block (statements : List TsNode)
  | returnStmt (expression : Option TsNode)
  | exprStmt (expression : TsNode)
  | unary (operator : UnaryOp) (operand : TsNode)
  | conditional (condition : TsNode) (whenTrue : TsNode) (whenFalse : TsNode)
  | ident (name : String)
  | otherNode (tag : String) (children : List TsNode)

/-- `ts.isIfStatement`. -/
def isIfStatement : TsNode → Bool
  | .ifStmt _ _ _ => true
  | _ => false

/-- `ts.isSourceFile`. -/
def isSourceFile : TsNode → Bool
  | .sourceFile _ => true
  | _ => false

/-- `ts.isReturnStatement`. -/
def isReturnStatement : TsNode → Bool
  | .returnStmt _ => true
  | _ => false

/-- `ts.isConditionalExpression`. -/
def isConditionalExpression : TsNode → Bool
  | .conditional _ _ _ => true
  | _ => false

/-- `invertExpression` (IfFlipper module): if the expression is a
PrefixUnaryExpression whose operator is ExclamationToken, return its operand
unwrapped; otherwise wrap the expression in a new ExclamationToken
PrefixUnaryExpression. -/
def invertExpression (expression : TsNode) : TsNode :=
  match expression with
  | .unary .exclamation operand => operand
  | e => .unary .exclamation e

/-- `ts.Block.statements`: defined only on Block nodes; on any other node the
TypeScript property access yields `undefined` and the caller's spread /
`.some` call throws, modeled as `none`. -/
def statementsOf : TsNode → Option (List TsNode)
  | .block ss => some ss
  | _ => none

/-- `getBlockStatements(block, addMissingReturn?)`: if `addMissingReturn` is
set and no statement of the block is a return statement, return the
statements with a synthesized empty return appended; otherwise return the
statements as they are.  Called on a non-Block node (the `as ts.Block` casts
at the call sites) it throws — spreading or `.some`-ing
`undefined` — hence `none`. -/
def getBlockStatements (block : TsNode) (addMissingReturn : Bool := false) :
    Option (List TsNode) := do
  let ss ← statementsOf block
  if addMissingReturn && !(ss.any isReturnStatement) then
    pure (ss ++ [TsNode.returnStmt none])
  else
    pure ss

/-- `getContainingStatement(node, isValid)` (parser.ts): walk parent links
from `node` upward; return the first visited node satisfying the predicate,
or `undefined` when the parent of the current node is the SourceFile.

A node together with its chain of proper ancestors (nearest first) stands in
for the parent back-references.  Result encoding:
`some (some n)` — the loop returned `n`; `some none` — the loop returned
`undefined` (NOT_FOUND); `none` — a TypeError was thrown: the current node
has no parent, so `ts.isSourceFile(node.parent)` dereferenced `undefined`. -/
def getContainingStatement (isValid : TsNode → Bool) :
    TsNode → List TsNode → Option (Option TsNode)
  | node, ancestors =>
    if isValid node then some (some node)
    else
      match ancestors with
      | [] => none
      | parent :: rest =>
        if isSourceFile parent then some none
        else getContainingStatement isValid parent rest

/-- `IfFlipper.createSimplifyAction`, reduced to the replacement list it
puts in the workspace edit (the range side is `getVscodeRangeOfNode`,
modeled separately): extract the then-branch statements with
`addMissingReturn = true` and the else-branch statements without, then emit
`[newIf, ...elseContents]` where `newIf` reuses the original condition,
has the then-contents as its sole block body and no else branch.  The two
`as ts.Block` casts make the extractions throw when the corresponding
branch is not a Block. -/
def createSimplifyAction (expression thenStatement elseStatement : TsNode) :
    Option (List TsNode) := do
  let thenContents ← getBlockStatements thenStatement true
  let elseContents ← getBlockStatements elseStatement
  let newIfStatement := TsNode.ifStmt expression (TsNode.block thenContents) none
  pure (newIfStatement :: elseContents)

/-- `IfFlipper.createInvertAndSimplifyAction`, reduced to its replacement
list: extract the then-branch statements without a synthesized return and
the else-branch statements with `addMissingReturn = true`, then emit
`[newIf, ...thenContents]` where `newIf` has the inverted condition, the
else-contents as its sole block body and no else branch. -/
def createInvertAndSimplifyAction
    (expression thenStatement elseStatement : TsNode) :
    Option (List TsNode) := do
  let thenContents ← getBlockStatements thenStatement
  let elseContents ← getBlockStatements elseStatement true
  let newIfStatement :=
    TsNode.ifStmt (invertExpression expression) (TsNode.block elseContents) none
  pure (newIfStatement :: thenContents)

/-- One proposed edit of the if/else provider: the node whose original-text
range is replaced, and the ordered statement list printed as the
replacement. -/
structure IfEdit where
  target : TsNode
  replacement : List TsNode

/-- `IfFlipper.provideCodeActions`, from the point where the action context
has been resolved: `node?` is the node under the cursor paired with its
ancestor chain (`none` when `getAstNodeAtPosition` returned `undefined`).
The provider returns `undefined` when there is no node, no containing
if-statement, or the containing if-statement has no else branch; otherwise
it builds the simplify action and then the invert-and-simplify action from
that same if-statement and returns them as a two-element list.  Outer
`none` marks a thrown TypeError (from the unchecked Block casts inside the
action builders, or from the ancestor walk). -/
def provideCodeActions (node? : Option (TsNode × List TsNode)) :
    Option (Option (List IfEdit)) :=
  match node? with
  | none => some none
  | some (node, ancestors) =>
    match getContainingStatement isIfStatement node ancestors with
    | none => none
    | some none => some none
    | some (some containingIf) =>
      match containingIf with
      | .ifStmt expression thenStatement elseStatement? =>
        match elseStatement? with
        | none => some none
        | some elseStatement =>
          match createSimplifyAction expression thenStatement elseStatement,
              createInvertAndSimplifyAction expression thenStatement
                elseStatement with
          | some simplify, some invertAndSimplify =>
            some (some
              [⟨TsNode.ifStmt expression thenStatement (some elseStatement),
                  simplify⟩,
               ⟨TsNode.ifStmt expression thenStatement (some elseStatement),
                  invertAndSimplify⟩])
          | _, _ => none
      | _ => some none

/-- `recurseConditionalIntoIfElse` (TernaryConverter module): a
non-conditional expression becomes a return statement wrapping it; a
ConditionalExpression becomes an if-statement on its condition whose then-
and else-branches are one-statement blocks holding the recursively expanded
`whenTrue` and `whenFalse`. -/
def recurseConditionalIntoIfElse (expression : TsNode) : TsNode :=
  match expression with
  | .conditional condition whenTrue whenFalse =>
    TsNode.ifStmt condition
      (TsNode.block [recurseConditionalIntoIfElse whenTrue])
      (some (TsNode.block [recurseConditionalIntoIfElse whenFalse]))
  | e => TsNode.returnStmt (some e)

/-! ## Positions, ranges and the position resolver

The TypeScript API records on every node a `pos` (the offset at which the
node's leading trivia begins, i.e. the end of the previous token — comments
and whitespace in front of the node lie in `[pos, getStart())`), a
`getStart()` (the offset of the node's first own character) and an `end`
(one past the node's last character; trailing trivia is excluded).  A span
for offset containment is half-open: `pos <= offset < end`. -/

/-- The three offsets the TypeScript API associates with a node.  Invariant
of the parser (not needed by the proofs): `pos ≤ startChar ≤ endPos`, and
the text in `[pos, startChar)` is whitespace and comments only. -/
structure NodeSpan where
  pos : Nat
  startChar : Nat
  endPos : Nat
deriving DecidableEq, Repr

/-- A line/column range as handed to the editing collaborator
(`vscode.Range` built from two `vscode.Position`s). -/
structure VsRange where
  startLine : Nat
  startCharacter : Nat
  endLine : Nat
  endCharacter : Nat
deriving DecidableEq, Repr

/-- `ts.getLineAndCharacterOfPosition(source, offset)`: the zero-based line
(number of newline characters strictly before `offset`) and the column
(distance from the last newline before `offset`, or from the start of the
buffer on line 0). -/
def getLineAndCharacterOfPosition : List Char → Nat → Nat × Nat
  | _, 0 => (0, 0)
  | [], _ + 1 => (0, 0)
  | c :: rest, n + 1 =>
    let p := getLineAndCharacterOfPosition rest n
    if c = '\n' then (p.1 + 1, p.2)
    else if p.1 = 0 then (p.1, p.2 + 1)
    else p

/-- `source.getPositionOfLineAndCharacter(line, character)`: the offset a
line/column pair denotes — skip past `line` newlines, then advance
`character` columns. -/
def getPositionOfLineAndCharacter : List Char → Nat → Nat → Nat
  | _, 0, character => character
  | [], _ + 1, _ => 0
  | c :: rest, line + 1, character =>
    if c = '\n' then 1 + getPositionOfLineAndCharacter rest line character
    else 1 + getPositionOfLineAndCharacter rest (line + 1) character

/-- `getVscodeRangeOfNode(node, source)` (parser.ts): converts `node.pos`
and `node.end` to line/column positions and builds the replacement range
from them. -/
def getVscodeRangeOfNode (node : NodeSpan) (source : List Char) : VsRange :=
  let s := getLineAndCharacterOfPosition source node.pos
  let e := getLineAndCharacterOfPosition source node.endPos
  ⟨s.1, s.2, e.1, e.2⟩

/-- The range the spec's words describe: from the construct's first own
character (`getStart()`, here `startChar`) to its last character — leading
trivia excluded.  Stated from the spec, to be compared with
`getVscodeRangeOfNode`. -/
def specExactRangeOfNode (node : NodeSpan) (source : List Char) : VsRange :=
  let s := getLineAndCharacterOfPosition source node.startChar
  let e := getLineAndCharacterOfPosition source node.endPos
  ⟨s.1, s.2, e.1, e.2⟩

/-- `ts.SyntaxKind.FirstNode`: kinds below this value are tokens (leaves
carrying no node-shaped children that `ts.forEachChild` would visit); kinds
at or above it are proper nodes.  The numeral is the constant's value in the
TypeScript version in use; only the comparison against it matters. -/
def FirstNode : Nat := 166

/-- A positioned syntax tree as the position resolver sees it: a kind tag,
the `pos`/`end` offsets, and the ordered node children that
`ts.forEachChild` visits. -/
inductive PosTree where
  | node (kind : Nat) (pos : Nat) (endPos : Nat) (children : List PosTree)

def PosTree.kind : PosTree → Nat
  | .node k _ _ _ => k

def PosTree.pos : PosTree → Nat
  | .node _ p _ _ => p

def PosTree.endPos : PosTree → Nat
  | .node _ _ e _ => e

def PosTree.children : PosTree → List PosTree
  | .node _ _ _ cs => cs

/-- The `ts.forEachChild(node, cb)` call in `getAstNodeAtPosition`: visit
the node children in order and return the first for which the callback's
test `child.pos <= pos && child.end > pos` holds, or `undefined`. -/
def firstQualifying (pos : Nat) : List PosTree → Option PosTree
  | [] => none
  | c :: rest =>
    if c.pos ≤ pos && pos < c.endPos then some c
    else firstQualifying pos rest

/-- `getAstNodeAtPosition(node, pos)` (parser.ts): while the current node's
kind is at least `FirstNode`, look for the first direct child whose
half-open span contains `pos`; if none qualifies the current node is the
deepest covering node and is returned, otherwise descend into that child.
A node of token kind is returned immediately. -/
def getAstNodeAtPosition (node : PosTree) (pos : Nat) : PosTree :=
  if node.kind < FirstNode then node
  else
    match h : firstQualifying pos node.children with
    | none => node
    | some c => getAstNodeAtPosition c pos
termination_by node
decreasing_by
  have hmem : ∀ (cs : List PosTree), firstQualifying pos cs = some c → c ∈ cs := by
    intro cs
    induction cs with
    | nil => intro hx; cases hx
    | cons a rest ih =>
      intro hx
      by_cases ha : a.pos ≤ pos && pos < a.endPos
      · rw [firstQualifying, if_pos ha] at hx
        have hac := Option.some.inj hx
        rw [← hac]
        exact List.mem_cons_self a rest
      · rw [firstQualifying, if_neg ha] at hx
        exact List.mem_cons_of_mem a (ih hx)
  have h1 : sizeOf c < sizeOf node.children :=
    List.sizeOf_lt_of_mem (hmem node.children h)
  cases node with
  | node k p e cs => simp only [PosTree.children] at h1; simp; omega

mutual
/-- Well-formedness of a positioned tree as the TypeScript parser delivers
it: a node of token kind (kind below `FirstNode`) has no node children,
since `ts.forEachChild` visits none there. -/
def wfTokens : PosTree → Bool
  | .node k _ _ cs => (decide (FirstNode ≤ k) || cs.isEmpty) && wfTokensList cs

def wfTokensList : List PosTree → Bool
  | [] => true
  | c :: rest => wfTokens c && wfTokensList rest
end

/-- One run of the position resolver, as the spec describes it:
`ResolvesTo pos t r` holds when `r` is reached from `t` by descending, at
each step, into the first direct child whose half-open span
`child.pos <= pos < child.end` contains the offset, stopping at a node of
token kind or at a node none of whose children qualifies.  The derivation's
descent steps each move to a direct child, so its length is bounded by the
tree depth. -/
inductive ResolvesTo (pos : Nat) : PosTree → PosTree → Prop where
  | stopToken (t : PosTree) (h : t.kind < FirstNode) : ResolvesTo pos t t
  | stopNoChild (t : PosTree) (h1 : FirstNode ≤ t.kind)
      (h2 : firstQualifying pos t.children = none) : ResolvesTo pos t t
  | descend (t c r : PosTree) (h1 : FirstNode ≤ t.kind)
      (h2 : firstQualifying pos t.children = some c)
      (h3 : ResolvesTo pos c r) : ResolvesTo pos t r

/-! ## Measures on the conditional-to-if expansion output -/

/-- The number of conditional-expression levels the expansion walks
through: the conditional nodes reachable from the root through `whenTrue` /
`whenFalse` branches (the condition position is copied verbatim, never
expanded). -/
def countConditionalNodes : TsNode → Nat
  | .conditional _ whenTrue whenFalse =>
    1 + countConditionalNodes whenTrue + countConditionalNodes whenFalse
  | _ => 0

/-- The leaf (non-conditional) sub-expressions of a conditional expression,
in branch order: exactly the expressions the expansion must wrap in return
statements. -/
def conditionalLeaves : TsNode → List TsNode
  | .conditional _ whenTrue whenFalse =>
    conditionalLeaves whenTrue ++ conditionalLeaves whenFalse
  | e => [e]

mutual
/-- The if-statements in a generated statement tree, counted through blocks
and both branches; return statements are leaves (the expressions they wrap
are copied verbatim and not traversed). -/
def generatedIfCount : TsNode → Nat
  | .ifStmt _ thenStatement elseStatement =>
    1 + generatedIfCount thenStatement + generatedIfCountOpt elseStatement
  | .block ss => generatedIfCountList ss
  | _ => 0

def generatedIfCountOpt : Option TsNode → Nat
  | none => 0
  | some s => generatedIfCount s

def generatedIfCountList : List TsNode → Nat
  | [] => 0
  | s :: rest => generatedIfCount s + generatedIfCountList rest
end

mutual
/-- The expressions wrapped by the return statements of a generated
statement tree, in order of appearance. -/
def generatedReturnExprs : TsNode → List TsNode
  | .ifStmt _ thenStatement elseStatement =>
    generatedReturnExprs thenStatement ++ generatedReturnExprsOpt elseStatement
  | .block ss => generatedReturnExprsList ss
  | .returnStmt (some e) => [e]
  | _ => []

def generatedReturnExprsOpt : Option TsNode → List TsNode
  | none => []
  | some s => generatedReturnExprs s

def generatedReturnExprsList : List TsNode → List TsNode
  | [] => []
  | s :: rest => generatedReturnExprs s ++ generatedReturnExprsList rest
end

/-- The shape the spec promises for the expansion output: a return
statement wrapping an expression, or an if-statement whose then-branch and
else-branch are both one-statement blocks of the same shape.  On such a
tree every leaf path ends in exactly one return statement. -/
def isExpansionShape : TsNode → Bool
  | .returnStmt (some _) => true
  | .ifStmt _ (.block [thenInner]) (some (.block [elseInner])) =>
    isExpansionShape thenInner && isExpansionShape elseInner
  | _ => false

/-- A double negation `!!x`: the one shape on which the inverter's
double-negation unwrapping is not undone by a second application. -/
def isDoubleNegation : TsNode → Bool
  | .unary .exclamation (.unary .exclamation _) => true
  | _ => false

/-- A small well-formed positioned tree used to exercise the position
resolver: a ten-character buffer whose root has a token child spanning
`[0, 4)` and a node child spanning `[4, 10)` that itself wraps a token. -/
def samplePosTree : PosTree :=
  .node 200 0 10
    [.node 80 0 4 [], .node 250 4 10 [.node 80 4 10 []]]

/-! ## Theorems -/

theorem getLineChar_cons_succ (c : Char) (rest : List Char) (n : Nat) :
    getLineAndCharacterOfPosition (c :: rest) (n + 1) =
      if c = '\n' then
        ((getLineAndCharacterOfPosition rest n).1 + 1,
         (getLineAndCharacterOfPosition rest n).2)
      else if (getLineAndCharacterOfPosition rest n).1 = 0 then
        ((getLineAndCharacterOfPosition rest n).1,
         (getLineAndCharacterOfPosition rest n).2 + 1)
      else getLineAndCharacterOfPosition rest n := rfl

theorem getPosition_line_zero (source : List Char) (character : Nat) :
    getPositionOfLineAndCharacter source 0 character = character := by
  cases source <;> rfl

theorem getPosition_cons_succ (c : Char) (rest : List Char) (line character : Nat) :
    getPositionOfLineAndCharacter (c :: rest) (line + 1) character =
      if c = '\n' then 1 + getPositionOfLineAndCharacter rest line character
      else 1 + getPositionOfLineAndCharacter rest (line + 1) character := rfl

/-- Converting an in-range offset to line/column and back is the identity:
the line/column pair denotes exactly the offset it was computed from. -/
theorem getPosition_getLineAndCharacter (source : List Char) :
    ∀ n : Nat, n ≤ source.length →
      getPositionOfLineAndCharacter source
        (getLineAndCharacterOfPosition source n).1
        (getLineAndCharacterOfPosition source n).2 = n := by
  induction source with
  | nil =>
    intro n hn
    have : n = 0 := Nat.le_zero.mp hn
    subst this
    rfl
  | cons c rest ih =>
    intro n hn
    match n with
    | 0 => rfl
    | n + 1 =>
      have hn' : n ≤ rest.length := Nat.le_of_succ_le_succ hn
      have hr := ih n hn'
      rcases hp : getLineAndCharacterOfPosition rest n with ⟨pl, pch⟩
      rw [hp] at hr
      rw [getLineChar_cons_succ, hp]
      by_cases hc : c = '\n'
      · rw [if_pos hc]
        show getPositionOfLineAndCharacter (c :: rest) (pl + 1) pch = n + 1
        rw [getPosition_cons_succ, if_pos hc, hr]
        omega
      · rw [if_neg hc]
        by_cases hl : pl = 0
        · subst hl
          rw [if_pos rfl]
          show getPositionOfLineAndCharacter (c :: rest) 0 (pch + 1) = n + 1
          rw [getPosition_line_zero]
          rw [getPosition_line_zero] at hr
          omega
        · rw [if_neg hl]
          obtain ⟨l, rfl⟩ : ∃ l, pl = l + 1 := ⟨pl - 1, by omega⟩
          show getPositionOfLineAndCharacter (c :: rest) (l + 1) pch = n + 1
          rw [getPosition_cons_succ, if_neg hc, hr]
          omega

/-- Helper: full characterization of `getBlockStatements` on a block. -/
theorem getBlockStatements_block
    (statements : List TsNode) (addMissingReturn : Bool) :
    getBlockStatements (TsNode.block statements) addMissingReturn =
      some (if addMissingReturn && !(statements.any isReturnStatement) then
              statements ++ [TsNode.returnStmt none]
            else statements) := by
  have hunf : getBlockStatements (TsNode.block statements) addMissingReturn =
      if addMissingReturn && !(statements.any isReturnStatement) then
        some (statements ++ [TsNode.returnStmt none])
      else some statements := rfl
  rw [hunf]
  by_cases h : addMissingReturn && !(statements.any isReturnStatement)
  · rw [if_pos h, if_pos h]
  · rw [if_neg h, if_neg h]

/-- Helper: extraction with `addMissingReturn = true`, phrased by cases on
whether a return statement is already present. -/
theorem getBlockStatements_true (statements : List TsNode) :
    getBlockStatements (TsNode.block statements) true =
      some (if statements.any isReturnStatement then statements
            else statements ++ [TsNode.returnStmt none]) := by
  rw [getBlockStatements_block]
  by_cases h : statements.any isReturnStatement <;> simp [h]

/-- Helper: extraction without `addMissingReturn` returns the statement
list unchanged. -/
theorem getBlockStatements_false (statements : List TsNode) :
    getBlockStatements (TsNode.block statements) false = some statements := rfl

/-- C7: `getBlockStatements` on a block returns exactly the block's
statements in their original order (the source block itself, being a value
of an inductive type here, is unchanged — the result is a fresh list built
from it); a single synthesized empty return is appended at the end exactly
when `addMissingReturn` is set and no statement of the block is already a
return statement, and otherwise the result equals the block's statement
list unchanged. -/
theorem getBlockStatements_characterization
    (statements : List TsNode) (addMissingReturn : Bool) :
    getBlockStatements (TsNode.block statements) addMissingReturn =
      some (if addMissingReturn && !(statements.any isReturnStatement) then
              statements ++ [TsNode.returnStmt none]
            else statements) :=
  getBlockStatements_block statements addMissingReturn

/-- C5 counterexample: the claim `invert (invert x) = x` fails structurally
at the double negation `x = !!z`: inverting once unwraps to `!z`, inverting
again unwraps to `z`, which is not the original node. -/
theorem invert_invert_counterexample :
    invertExpression (invertExpression
        (TsNode.unary .exclamation
          (TsNode.unary .exclamation (TsNode.ident "z")))) ≠
      TsNode.unary .exclamation
        (TsNode.unary .exclamation (TsNode.ident "z")) := by
  intro h
  exact TsNode.noConfusion h

/-- C5 (amended): for every expression that is not a double negation
(`!!x`), applying `invertExpression` twice restores the original node
structure exactly: a non-negation is wrapped and then unwrapped, and a
single negation is unwrapped and then re-wrapped. -/
theorem invert_invert_structural (expression : TsNode)
    (h : isDoubleNegation expression = false) :
    invertExpression (invertExpression expression) = expression := by
  cases expression with
  | unary op inner =>
    cases op with
    | exclamation =>
      cases inner with
      | unary iop iinner =>
        cases iop with
        | exclamation => simp [isDoubleNegation] at h
        | minus => rfl
        | plus => rfl
        | tilde => rfl
      | sourceFile ss => rfl
      | ifStmt c t e => rfl
      | block ss => rfl
      | returnStmt e => rfl
      | exprStmt e => rfl
      | conditional c t f => rfl
      | ident s => rfl
      | otherNode tag cs => rfl
    | minus => rfl
    | plus => rfl
    | tilde => rfl
  | sourceFile ss => rfl
  | ifStmt c t e => rfl
  | block ss => rfl
  | returnStmt e => rfl
  | exprStmt e => rfl
  | conditional c t f => rfl
  | ident s => rfl
  | otherNode tag cs => rfl

/-- Witness for the amended C5 theorem at the concrete condition `cond`. -/
theorem invert_invert_structural_witness :
    isDoubleNegation (TsNode.ident "cond") = false ∧
      invertExpression (invertExpression (TsNode.ident "cond")) =
        TsNode.ident "cond" :=
  ⟨rfl, invert_invert_structural (TsNode.ident "cond") rfl⟩

/-- C2: for an if/else whose branches are blocks, the guard-clause-simplify
transform yields exactly the replacement list `[newIf, ...elseStatements]`:
the new if-statement keeps the original condition, its sole body is the
then-branch statement list with a synthesized empty return appended when no
return statement was present, and it has no else branch; the else-branch
statements follow as siblings in their original order. -/
theorem createSimplifyAction_spec (expression : TsNode)
    (thenStatements elseStatements : List TsNode) :
    createSimplifyAction expression (TsNode.block thenStatements)
        (TsNode.block elseStatements) =
      some (TsNode.ifStmt expression
          (TsNode.block
            (if thenStatements.any isReturnStatement then thenStatements
             else thenStatements ++ [TsNode.returnStmt none])) none
        :: elseStatements) := by
  simp only [createSimplifyAction, getBlockStatements_true,
    getBlockStatements_false, Option.bind_eq_bind, Option.some_bind]
  rfl

/-- C3: for an if/else whose branches are blocks, the invert-and-simplify
transform yields exactly the replacement list `[newIf, ...thenStatements]`:
the new if-statement's condition is `invertExpression` of the original
condition, its sole body is the else-branch statement list with a
synthesized empty return appended when no return statement was present, and
it has no else branch; the then-branch statements follow as siblings in
their original order. -/
theorem createInvertAndSimplifyAction_spec (expression : TsNode)
    (thenStatements elseStatements : List TsNode) :
    createInvertAndSimplifyAction expression (TsNode.block thenStatements)
        (TsNode.block elseStatements) =
      some (TsNode.ifStmt (invertExpression expression)
          (TsNode.block
            (if elseStatements.any isReturnStatement then elseStatements
             else elseStatements ++ [TsNode.returnStmt none])) none
        :: thenStatements) := by
  simp only [createInvertAndSimplifyAction, getBlockStatements_true,
    getBlockStatements_false, Option.bind_eq_bind, Option.some_bind]
  rfl

/-- C1 (code-bug evidence): with the cursor on the condition of
`if (a) { } else if (b) { }`, the nearest enclosing if-statement's else
branch is present but is an if-statement, not a block.  The provider's
only guards are `containingIf === undefined` and
`containingIf.elseStatement === undefined`, so the malformed shape is not
detected and extraction is attempted: `getBlockStatements` dereferences
`.statements` of a non-Block node and throws (modeled `none`) — the
handlers crash rather than returning an empty edit set. -/
theorem elseIfChain_crashes :
    provideCodeActions (some (TsNode.ident "a",
        [TsNode.ifStmt (TsNode.ident "a") (TsNode.block [])
            (some (TsNode.ifStmt (TsNode.ident "b") (TsNode.block []) none)),
         TsNode.sourceFile
           [TsNode.ifStmt (TsNode.ident "a") (TsNode.block [])
              (some (TsNode.ifStmt (TsNode.ident "b") (TsNode.block [])
                none))]])) = none ∧
    createSimplifyAction (TsNode.ident "a") (TsNode.block [])
        (TsNode.ifStmt (TsNode.ident "b") (TsNode.block []) none) = none ∧
    createInvertAndSimplifyAction (TsNode.ident "a") (TsNode.block [])
        (TsNode.ifStmt (TsNode.ident "b") (TsNode.block []) none) = none :=
  ⟨rfl, rfl, rfl⟩

/-- Helper: once the ancestor walk has found an if-statement with an else
branch, the provider's result is determined by the two action builders. -/
theorem provideCodeActions_found (node : TsNode) (ancestors : List TsNode)
    (expression thenStatement elseStatement : TsNode)
    (hcs : getContainingStatement isIfStatement node ancestors =
      some (some (TsNode.ifStmt expression thenStatement
        (some elseStatement)))) :
    provideCodeActions (some (node, ancestors)) =
      match createSimplifyAction expression thenStatement elseStatement,
          createInvertAndSimplifyAction expression thenStatement
            elseStatement with
      | some simplify, some invertAndSimplify =>
        some (some
          [⟨TsNode.ifStmt expression thenStatement (some elseStatement),
              simplify⟩,
           ⟨TsNode.ifStmt expression thenStatement (some elseStatement),
              invertAndSimplify⟩])
      | _, _ => none := by
  rw [provideCodeActions, hcs]

/-- C10: whenever the if/else provider returns a list of proposed edits at
all, that list has exactly two elements — the guard-clause simplify edit
first and the invert-and-simplify edit second — and both target the same
nearest enclosing if-statement found by the ancestor walk (it is never the
case that one edit is proposed without the other). -/
theorem provideCodeActions_pair (node? : Option (TsNode × List TsNode))
    (edits : List IfEdit)
    (h : provideCodeActions node? = some (some edits)) :
    ∃ node ancestors expression thenStatement elseStatement simplify
        invertAndSimplify,
      node? = some (node, ancestors) ∧
      getContainingStatement isIfStatement node ancestors =
        some (some (TsNode.ifStmt expression thenStatement
          (some elseStatement))) ∧
      createSimplifyAction expression thenStatement elseStatement =
        some simplify ∧
      createInvertAndSimplifyAction expression thenStatement elseStatement =
        some invertAndSimplify ∧
      edits =
        [⟨TsNode.ifStmt expression thenStatement (some elseStatement),
            simplify⟩,
         ⟨TsNode.ifStmt expression thenStatement (some elseStatement),
            invertAndSimplify⟩] := by
  match node? with
  | none => simp [provideCodeActions] at h
  | some (node, ancestors) =>
    rcases hcs : getContainingStatement isIfStatement node ancestors
      with _ | (_ | containingIf)
    · have hred : provideCodeActions (some (node, ancestors)) = none := by
        rw [provideCodeActions, hcs]
      rw [hred] at h
      simp at h
    · have hred : provideCodeActions (some (node, ancestors)) = some none := by
        rw [provideCodeActions, hcs]
      rw [hred] at h
      simp at h
    · cases containingIf with
      | ifStmt expression thenStatement elseStatement? =>
        cases elseStatement? with
        | none =>
          have hred : provideCodeActions (some (node, ancestors)) =
              some none := by
            rw [provideCodeActions, hcs]
          rw [hred] at h
          simp at h
        | some elseStatement =>
          have hred := provideCodeActions_found node ancestors expression
            thenStatement elseStatement hcs
          rw [hred] at h
          rcases hs : createSimplifyAction expression thenStatement
              elseStatement with _ | simplify
          · rw [hs] at h
            have h' : (none : Option (Option (List IfEdit))) =
                some (some edits) := h
            simp at h'
          · rw [hs] at h
            rcases hi : createInvertAndSimplifyAction expression
                thenStatement elseStatement with _ | invertAndSimplify
            · rw [hi] at h
              have h' : (none : Option (Option (List IfEdit))) =
                  some (some edits) := h
              simp at h'
            · rw [hi] at h
              have h' : some (some
                  ([⟨TsNode.ifStmt expression thenStatement
                       (some elseStatement), simplify⟩,
                    ⟨TsNode.ifStmt expression thenStatement
                       (some elseStatement), invertAndSimplify⟩] :
                    List IfEdit)) = some (some edits) := h
              have hedits := (Option.some.inj (Option.some.inj h')).symm
              exact ⟨node, ancestors, expression, thenStatement,
                elseStatement, simplify, invertAndSimplify, rfl, hcs, hs, hi,
                hedits⟩
      | sourceFile ss =>
        have hred : provideCodeActions (some (node, ancestors)) =
            some none := by
          rw [provideCodeActions, hcs]
        rw [hred] at h
        simp at h
      | block ss =>
        have hred : provideCodeActions (some (node, ancestors)) =
            some none := by
          rw [provideCodeActions, hcs]
        rw [hred] at h
        simp at h
      | returnStmt e =>
        have hred : provideCodeActions (some (node, ancestors)) =
            some none := by
          rw [provideCodeActions, hcs]
        rw [hred] at h
        simp at h
      | exprStmt e =>
        have hred : provideCodeActions (some (node, ancestors)) =
            some none := by
          rw [provideCodeActions, hcs]
        rw [hred] at h
        simp at h
      | unary op operand =>
        have hred : provideCodeActions (some (node, ancestors)) =
            some none := by
          rw [provideCodeActions, hcs]
        rw [hred] at h
        simp at h
      | conditional c t f =>
        have hred : provideCodeActions (some (node, ancestors)) =
            some none := by
          rw [provideCodeActions, hcs]
        rw [hred] at h
        simp at h
      | ident s =>
        have hred : provideCodeActions (some (node, ancestors)) =
            some none := by
          rw [provideCodeActions, hcs]
        rw [hred] at h
        simp at h
      | otherNode tag cs =>
        have hred : provideCodeActions (some (node, ancestors)) =
            some none := by
          rw [provideCodeActions, hcs]
        rw [hred] at h
        simp at h

/-- Witness for C10 at a concrete if/else under the cursor: the provider
returns exactly the simplify/invert pair. -/
theorem provideCodeActions_pair_witness :
    ∃ node ancestors expression thenStatement elseStatement simplify
        invertAndSimplify,
      (some (TsNode.ident "c",
          [TsNode.ifStmt (TsNode.ident "c")
              (TsNode.block [TsNode.exprStmt (TsNode.ident "x")])
              (some (TsNode.block [TsNode.exprStmt (TsNode.ident "y")])),
           TsNode.sourceFile []]) :
            Option (TsNode × List TsNode)) = some (node, ancestors) ∧
      getContainingStatement isIfStatement node ancestors =
        some (some (TsNode.ifStmt expression thenStatement
          (some elseStatement))) ∧
      createSimplifyAction expression thenStatement elseStatement =
        some simplify ∧
      createInvertAndSimplifyAction expression thenStatement elseStatement =
        some invertAndSimplify ∧
      [⟨TsNode.ifStmt (TsNode.ident "c")
          (TsNode.block [TsNode.exprStmt (TsNode.ident "x")])
          (some (TsNode.block [TsNode.exprStmt (TsNode.ident "y")])),
        [TsNode.ifStmt (TsNode.ident "c")
           (TsNode.block [TsNode.exprStmt (TsNode.ident "x"),
             TsNode.returnStmt none]) none,
         TsNode.exprStmt (TsNode.ident "y")]⟩,
       (⟨TsNode.ifStmt (TsNode.ident "c")
          (TsNode.block [TsNode.exprStmt (TsNode.ident "x")])
          (some (TsNode.block [TsNode.exprStmt (TsNode.ident "y")])),
        [TsNode.ifStmt (TsNode.unary .exclamation (TsNode.ident "c"))
           (TsNode.block [TsNode.exprStmt (TsNode.ident "y"),
             TsNode.returnStmt none]) none,
         TsNode.exprStmt (TsNode.ident "x")]⟩ : IfEdit)] =
        [⟨TsNode.ifStmt expression thenStatement (some elseStatement),
            simplify⟩,
         ⟨TsNode.ifStmt expression thenStatement (some elseStatement),
            invertAndSimplify⟩] :=
  provideCodeActions_pair _ _ rfl

/-- C9: the ancestor walk is total exactly as the claim qualifies it.
Under the precondition that the start node satisfies the predicate or is a
proper descendant of a source file (a source file occurs among its
ancestors), the walk terminates without a crash and returns the nearest
satisfying node among the start node and its ancestors below the first
source file — or `undefined` (NOT_FOUND) when none satisfies.  Started at
a parentless node with an unsatisfied predicate, the walk instead
dereferences the missing parent (`ts.isSourceFile(node.parent)` is its
only parent-existence test) and throws, modeled `none`. -/
theorem getContainingStatement_total (isValid : TsNode → Bool) :
    (∀ (node : TsNode) (ancestors : List TsNode),
        (isValid node = true ∨ ∃ a ∈ ancestors, isSourceFile a = true) →
        getContainingStatement isValid node ancestors =
          some ((node ::
              ancestors.takeWhile (fun a => !isSourceFile a)).find?
            isValid)) ∧
    (∀ node : TsNode, isValid node = false →
        getContainingStatement isValid node [] = none) := by
  constructor
  · intro node ancestors
    induction ancestors generalizing node with
    | nil =>
      intro h
      have hv : isValid node = true := by
        rcases h with h | ⟨a, ha, _⟩
        · exact h
        · cases ha
      rw [getContainingStatement, if_pos hv]
      simp [List.find?, hv]
    | cons parent rest ih =>
      intro h
      by_cases hv : isValid node = true
      · rw [getContainingStatement, if_pos hv]
        simp [List.find?, hv]
      · have hvf : isValid node = false := by
          cases hval : isValid node
          · rfl
          · exact absurd hval hv
        rw [getContainingStatement, if_neg (by rw [hvf]; exact Bool.false_ne_true)]
        by_cases hsf : isSourceFile parent = true
        · rw [if_pos hsf]
          rw [List.takeWhile_cons_of_neg (by simp [hsf])]
          simp [List.find?, hvf]
        · have hsff : isSourceFile parent = false := by
            cases hsval : isSourceFile parent
            · rfl
            · exact absurd hsval hsf
          rw [if_neg (by rw [hsff]; exact Bool.false_ne_true)]
          have hpre : isValid parent = true ∨
              ∃ a ∈ rest, isSourceFile a = true := by
            rcases h with h | ⟨a, ha, hasf⟩
            · exact absurd h hv
            · rcases List.mem_cons.mp ha with rfl | ha'
              · exact absurd hasf hsf
              · exact Or.inr ⟨a, ha', hasf⟩
          rw [ih parent hpre]
          rw [List.takeWhile_cons_of_pos (by simp [hsff])]
          simp [List.find?, hvf]
  · intro node hvf
    rw [getContainingStatement, if_neg (by rw [hvf]; exact Bool.false_ne_true)]

/-- Witness for C9: a node below a source file resolves to its enclosing
if-statement, and a parentless non-matching node crashes the walk. -/
theorem getContainingStatement_total_witness :
    ((isIfStatement (TsNode.ident "x") = true ∨
        ∃ a ∈ [TsNode.ifStmt (TsNode.ident "x") (TsNode.block []) none,
               TsNode.sourceFile []], isSourceFile a = true) ∧
      getContainingStatement isIfStatement (TsNode.ident "x")
          [TsNode.ifStmt (TsNode.ident "x") (TsNode.block []) none,
           TsNode.sourceFile []] =
        some ((TsNode.ident "x" ::
            List.takeWhile (fun a => !isSourceFile a)
              [TsNode.ifStmt (TsNode.ident "x") (TsNode.block []) none,
               TsNode.sourceFile []]).find? isIfStatement)) ∧
    (isIfStatement (TsNode.ident "y") = false ∧
      getContainingStatement isIfStatement (TsNode.ident "y") [] = none) :=
  ⟨⟨Or.inr ⟨TsNode.sourceFile [],
      List.mem_cons_of_mem _ (List.mem_cons_self _ _), rfl⟩,
    (getContainingStatement_total isIfStatement).1 _ _
      (Or.inr ⟨TsNode.sourceFile [],
        List.mem_cons_of_mem _ (List.mem_cons_self _ _), rfl⟩)⟩,
   rfl,
   (getContainingStatement_total isIfStatement).2 _ rfl⟩

/-- C4: the conditional-to-if expansion produces one if-statement per
conditional level (`generatedIfCount` of the output equals the number of
conditional nodes reached through the when-true/when-false branches), every
leaf sub-expression becomes a return statement wrapping it verbatim (the
wrapped expressions, in order, are exactly the conditional's leaves), the
output has the promised shape — each if has a then-block and an else-block
wrapping the recursively expanded branch and every leaf path ends in
exactly one return — and a non-conditional input yields a bare return. -/
theorem recurseConditional_spec (expression : TsNode) :
    generatedIfCount (recurseConditionalIntoIfElse expression) =
      countConditionalNodes expression ∧
    generatedReturnExprs (recurseConditionalIntoIfElse expression) =
      conditionalLeaves expression ∧
    isExpansionShape (recurseConditionalIntoIfElse expression) = true ∧
    (isConditionalExpression expression = false →
      recurseConditionalIntoIfElse expression =
        TsNode.returnStmt (some expression)) := by
  induction expression using recurseConditionalIntoIfElse.induct with
  | case1 condition whenTrue whenFalse iht ihf =>
    obtain ⟨iht1, iht2, iht3, -⟩ := iht
    obtain ⟨ihf1, ihf2, ihf3, -⟩ := ihf
    refine ⟨?_, ?_, ?_, ?_⟩
    · simp only [recurseConditionalIntoIfElse, generatedIfCount,
        generatedIfCountOpt, generatedIfCountList, countConditionalNodes,
        iht1, ihf1]
      omega
    · simp only [recurseConditionalIntoIfElse, generatedReturnExprs,
        generatedReturnExprsOpt, generatedReturnExprsList, conditionalLeaves,
        iht2, ihf2, List.append_nil]
    · simp only [recurseConditionalIntoIfElse, isExpansionShape, iht3, ihf3,
        Bool.and_self]
    · intro hc
      simp [isConditionalExpression] at hc
  | case2 e he =>
    cases e with
    | conditional c t f => exact absurd rfl (he c t f)
    | sourceFile ss => exact ⟨rfl, rfl, rfl, fun _ => rfl⟩
    | ifStmt c t o => exact ⟨rfl, rfl, rfl, fun _ => rfl⟩
    | block ss => exact ⟨rfl, rfl, rfl, fun _ => rfl⟩
    | returnStmt o => exact ⟨rfl, rfl, rfl, fun _ => rfl⟩
    | exprStmt e1 => exact ⟨rfl, rfl, rfl, fun _ => rfl⟩
    | unary op operand => exact ⟨rfl, rfl, rfl, fun _ => rfl⟩
    | ident s => exact ⟨rfl, rfl, rfl, fun _ => rfl⟩
    | otherNode tag cs => exact ⟨rfl, rfl, rfl, fun _ => rfl⟩

/-- Witness for C4 at the non-conditional leaf `v`: the expansion is a bare
return wrapping it. -/
theorem recurseConditional_spec_witness :
    isConditionalExpression (TsNode.ident "v") = false ∧
    generatedIfCount (recurseConditionalIntoIfElse (TsNode.ident "v")) =
      countConditionalNodes (TsNode.ident "v") ∧
    generatedReturnExprs (recurseConditionalIntoIfElse (TsNode.ident "v")) =
      conditionalLeaves (TsNode.ident "v") ∧
    isExpansionShape (recurseConditionalIntoIfElse (TsNode.ident "v")) =
      true ∧
    recurseConditionalIntoIfElse (TsNode.ident "v") =
      TsNode.returnStmt (some (TsNode.ident "v")) :=
  ⟨rfl, (recurseConditional_spec (TsNode.ident "v")).1,
   (recurseConditional_spec (TsNode.ident "v")).2.1,
   (recurseConditional_spec (TsNode.ident "v")).2.2.1,
   (recurseConditional_spec (TsNode.ident "v")).2.2.2 rfl⟩

/-- C6 counterexample: `getVscodeRangeOfNode` converts `node.pos`, which is
the start of the node's leading trivia, not the construct's first
character.  For an if-statement preceded by two spaces of trivia (a buffer
holding `  if (a) b(); else c();`, node offsets `pos = 0`,
`getStart() = 2`, `end = 23`) the computed range starts at column 0 while
the construct's first character is at column 2 — the range includes the
preceding whitespace, contradicting the claim. -/
theorem rangeOfNode_includes_leading_trivia :
    getVscodeRangeOfNode ⟨0, 2, 23⟩ ("  if (a) b(); else c();".toList) ≠
      specExactRangeOfNode ⟨0, 2, 23⟩ ("  if (a) b(); else c();".toList) := by
  decide

/-- C6 (amended): the computed range's endpoints denote exactly the offsets
`node.pos` (the start of the node's leading trivia — the end of the
previous token) and `node.end` (one past the node's last character):
mapping the range's line/column endpoints back to offsets returns `pos`
and `endPos`, so the range covers the construct together with exactly its
leading trivia (whitespace or comments, never a neighboring statement's
own text) and nothing past the construct's last character; it coincides
with the construct's exact span precisely when the node has no leading
trivia (`pos = startChar`). -/
theorem getVscodeRangeOfNode_spec (node : NodeSpan) (source : List Char)
    (h1 : node.pos ≤ source.length) (h2 : node.endPos ≤ source.length) :
    getPositionOfLineAndCharacter source
        (getVscodeRangeOfNode node source).startLine
        (getVscodeRangeOfNode node source).startCharacter = node.pos ∧
    getPositionOfLineAndCharacter source
        (getVscodeRangeOfNode node source).endLine
        (getVscodeRangeOfNode node source).endCharacter = node.endPos ∧
    (node.pos = node.startChar →
      getVscodeRangeOfNode node source = specExactRangeOfNode node source) := by
  refine ⟨?_, ?_, ?_⟩
  · exact getPosition_getLineAndCharacter source node.pos h1
  · exact getPosition_getLineAndCharacter source node.endPos h2
  · intro hp
    unfold getVscodeRangeOfNode specExactRangeOfNode
    rw [hp]

/-- Witness for the amended C6 theorem on the leading-trivia buffer. -/
theorem getVscodeRangeOfNode_spec_witness :
    getPositionOfLineAndCharacter ("  if (a) b(); else c();".toList)
        (getVscodeRangeOfNode ⟨0, 2, 23⟩
          ("  if (a) b(); else c();".toList)).startLine
        (getVscodeRangeOfNode ⟨0, 2, 23⟩
          ("  if (a) b(); else c();".toList)).startCharacter = 0 ∧
    getPositionOfLineAndCharacter ("  if (a) b(); else c();".toList)
        (getVscodeRangeOfNode ⟨0, 2, 23⟩
          ("  if (a) b(); else c();".toList)).endLine
        (getVscodeRangeOfNode ⟨0, 2, 23⟩
          ("  if (a) b(); else c();".toList)).endCharacter = 23 ∧
    ((0 : Nat) = 2 →
      getVscodeRangeOfNode ⟨0, 2, 23⟩ ("  if (a) b(); else c();".toList) =
        specExactRangeOfNode ⟨0, 2, 23⟩ ("  if (a) b(); else c();".toList)) :=
  getVscodeRangeOfNode_spec ⟨0, 2, 23⟩ ("  if (a) b(); else c();".toList)
    (by decide) (by decide)

theorem firstQualifying_mem {pos : Nat} :
    ∀ {cs : List PosTree} {c : PosTree},
      firstQualifying pos cs = some c → c ∈ cs := by
  intro cs
  induction cs with
  | nil => intro c h; cases h
  | cons a rest ih =>
    intro c h
    by_cases ha : a.pos ≤ pos && pos < a.endPos
    · rw [firstQualifying, if_pos ha] at h
      have hac := Option.some.inj h
      rw [← hac]
      exact List.mem_cons_self a rest
    · rw [firstQualifying, if_neg ha] at h
      exact List.mem_cons_of_mem a (ih h)

theorem wfTokensList_mem {cs : List PosTree} {c : PosTree}
    (h : wfTokensList cs = true) (hm : c ∈ cs) : wfTokens c = true := by
  induction cs with
  | nil => cases hm
  | cons a rest ih =>
    rw [wfTokensList] at h
    simp only [Bool.and_eq_true] at h
    rcases List.mem_cons.mp hm with rfl | hm'
    · exact h.1
    · exact ih h.2 hm'

theorem wfTokens_children {k p e : Nat} {cs : List PosTree}
    (h : wfTokens (.node k p e cs) = true) : wfTokensList cs = true := by
  rw [wfTokens] at h
  simp only [Bool.and_eq_true] at h
  exact h.2

theorem wfTokens_token_childless {k p e : Nat} {cs : List PosTree}
    (h : wfTokens (.node k p e cs) = true) (hk : k < FirstNode) : cs = [] := by
  rw [wfTokens] at h
  simp only [Bool.and_eq_true, Bool.or_eq_true] at h
  rcases h.1 with hge | hemp
  · exact absurd (of_decide_eq_true hge) (Nat.not_le_of_lt hk)
  · exact List.isEmpty_iff.mp hemp

/-- C8: the position resolver is total (it is a terminating function of the
tree, the recursion descending into a strict subtree at each step, hence
bounded by the tree depth) and its result is characterized exactly as the
claim states: the returned node is reached from the root by descending, at
each step, into the first direct child whose half-open span satisfies
`child.pos <= offset < child.end`, and on a well-formed tree the returned
node has no qualifying child of its own — it is the most specific covering
node. -/
theorem getAstNodeAtPosition_spec (t : PosTree) (pos : Nat)
    (hwf : wfTokens t = true) :
    ResolvesTo pos t (getAstNodeAtPosition t pos) ∧
    firstQualifying pos (getAstNodeAtPosition t pos).children = none := by
  revert hwf
  induction t, pos using getAstNodeAtPosition.induct with
  | case1 t pos h =>
    intro hwf
    rw [getAstNodeAtPosition, if_pos h]
    refine ⟨ResolvesTo.stopToken t h, ?_⟩
    cases t with
    | node k p e cs =>
      have hcs : cs = [] :=
        wfTokens_token_childless hwf (by simpa [PosTree.kind] using h)
      simp [PosTree.children, firstQualifying, hcs]
  | case2 t pos h hq =>
    intro hwf
    rw [getAstNodeAtPosition, if_neg h, hq]
    exact ⟨ResolvesTo.stopNoChild t (Nat.le_of_not_lt h) hq, hq⟩
  | case3 t pos h c hq ih =>
    intro hwf
    have hc : wfTokens c = true := by
      cases t with
      | node k p e cs =>
        exact wfTokensList_mem (wfTokens_children hwf)
          (by simpa [PosTree.children] using firstQualifying_mem hq)
    obtain ⟨h1, h2⟩ := ih hc
    rw [getAstNodeAtPosition, if_neg h, hq]
    exact ⟨ResolvesTo.descend t c _ (Nat.le_of_not_lt h) hq h1, h2⟩

/-- Witness for C8 on the sample tree at offset 5: the resolver descends
through the second child into its token and stops there. -/
theorem getAstNodeAtPosition_spec_witness :
    wfTokens samplePosTree = true ∧
    (ResolvesTo 5 samplePosTree (getAstNodeAtPosition samplePosTree 5) ∧
      firstQualifying 5
        (getAstNodeAtPosition samplePosTree 5).children = none) :=
  ⟨by decide, getAstNodeAtPosition_spec samplePosTree 5 (by decide)⟩

end Refacta
